import Mathlib

/-!
Shallow embedding of the CBOR encoder in src/cbor2/encoder.py.

Bytes are modelled as natural numbers below 256, byte strings as lists of
naturals.  The mutable encoder object is split into an immutable Config
(datetime_as_timestamp, default timezone) and a mutable EncState (the output
sink fp, the value_sharing flag, which encode_semantic toggles, the
container_indexes dict and the container_stack set).  A raised Python
exception is modelled by EncResult.err carrying the message and the state at
the moment of the raise: the bytes already written and the mutations already
made to the instance persist across the raise, exactly as in Python.
-/

namespace Cbor2

/-- The divmod loop of encode_int, producing the big-endian base-256 digits of
a natural number.  The first argument is fuel bounding the number of loop
steps; the value itself is enough fuel because each divmod strictly shrinks
the value. -/
def beBytesAux : Nat → Nat → List Nat
  | _, 0 => []
  | 0, _ + 1 => []
  | fuel + 1, m + 1 => beBytesAux fuel ((m + 1) / 256) ++ [(m + 1) % 256]

/-- Big-endian base-256 digits of m, most significant first; empty for 0. -/
def beBytes (m : Nat) : List Nat := beBytesAux m m

/-- Reading a big-endian byte string back as an unsigned integer. -/
def beToNat (bs : List Nat) : Nat := bs.foldl (fun acc b => acc * 256 + b) 0

/-- struct.pack of an unsigned big-endian field of w bytes (the H, L and Q
formats for w = 2, 4, 8). -/
def bePad : Nat → Nat → List Nat
  | 0, _ => []
  | w + 1, m => bePad w (m / 256) ++ [m % 256]

/-- encode_length from the source.  struct.pack raises struct.error when the
value does not fit the chosen field, which only the final unsigned 64-bit
field can hit; that raise is modelled by none. -/
def encode_length (major_tag length : Nat) : Option (List Nat) :=
  if length < 24 then some [major_tag ||| length]
  else if length < 256 then some [major_tag ||| 24, length]
  else if length < 65536 then some ((major_tag ||| 25) :: bePad 2 length)
  else if length < 4294967296 then some ((major_tag ||| 26) :: bePad 4 length)
  else if length < 18446744073709551616 then some ((major_tag ||| 27) :: bePad 8 length)
  else none

/-- Reversal of the size-class rule of the Packer: parse one complete head,
returning the 3-bit major type and the value, provided the byte list is
exactly one head. -/
def readHead (bs : List Nat) : Option (Nat × Nat) :=
  match bs with
  | [] => none
  | b :: rest =>
    if b % 32 < 24 then (if rest = [] then some (b / 32, b % 32) else none)
    else if b % 32 = 24 then (match rest with | [v] => some (b / 32, v) | _ => none)
    else if b % 32 = 25 then (if rest.length = 2 then some (b / 32, beToNat rest) else none)
    else if b % 32 = 26 then (if rest.length = 4 then some (b / 32, beToNat rest) else none)
    else if b % 32 = 27 then (if rest.length = 8 then some (b / 32, beToNat rest) else none)
    else none

/-- The byte count the minimal size class of the Packer produces for a value:
thresholds 23 / 255 / 65535 / 4294967295. -/
def sizeClassLen (n : Nat) : Nat :=
  if n < 24 then 1
  else if n < 256 then 2
  else if n < 65536 then 3
  else if n < 4294967296 then 5
  else 9

/-- Immutable encoder configuration (constructor arguments that the claims
need and that the encoder never mutates). -/
structure Config where
  datetime_as_timestamp : Bool
  timezone : Option Nat
deriving DecidableEq

/-- Mutable encoder state: the output sink plus the instance attributes that
encoding mutates.  value_sharing lives here because encode_semantic toggles
it around the payload. -/
structure EncState where
  out : List Nat
  value_sharing : Bool
  container_indexes : List (Nat × Nat)
  container_stack : List Nat
deriving DecidableEq

/-- Outcome of one encoding call: normal return, or a raised exception with
the message and the state at the raise. -/
inductive EncResult : Type where
  | ok (st : EncState)
  | err (msg : String) (st : EncState)
deriving DecidableEq

/-- fp.write. -/
def EncState.write (st : EncState) (bs : List Nat) : EncState :=
  { st with out := st.out ++ bs }

/-- set.add on the container stack (no duplicate is ever added). -/
def stackAdd (s : List Nat) (i : Nat) : List Nat :=
  if i ∈ s then s else i :: s

/-- dict.get on the container_indexes dict, modelled as an association list
whose most recent binding comes first. -/
def dictGet : List (Nat × Nat) → Nat → Option Nat
  | [], _ => none
  | (k, v) :: rest, key => if k = key then some v else dictGet rest key

def cycleMsg : String :=
  "cyclic data structure detected but value sharing is disabled"

def naiveMsg : String :=
  "naive datetime encountered and no default timezone has been set"

def structErrMsg : String := "struct.error"

/-- self.fp.write(encode_length(major, length)), with the struct.error raise
happening before anything is written. -/
def writeLen (st : EncState) (major_tag length : Nat) : EncResult :=
  match encode_length major_tag length with
  | some bs => .ok (st.write bs)
  | none => .err structErrMsg st

/-- encode_bytestring from the source. -/
def encode_bytestring (value : List Nat) (st : EncState) : EncResult :=
  match writeLen st 0x40 value.length with
  | .ok st2 => .ok (st2.write value)
  | .err msg st2 => .err msg st2

/-- UTF-8 bytes of a string (value.encode of the host language), character
by character. -/
def utf8Bytes (s : String) : List Nat :=
  (s.data.map (fun c => (String.utf8EncodeChar c).map (fun b => b.toNat))).flatten

/-- encode_string from the source. -/
def encode_string (value : String) (st : EncState) : EncResult :=
  match writeLen st 0x60 (utf8Bytes value).length with
  | .ok st2 => .ok (st2.write (utf8Bytes value))
  | .err msg st2 => .err msg st2

/-- encode_semantic from the source.  The generic self.encode(value) dispatch
on the payload is resolved at each call site: encodePayload is the encoder
the dispatch registry selects for the payload that call site passes.  Note
that when the payload raises, the saved value_sharing flag is not restored,
exactly as in the source (no try/finally there either). -/
def encode_semantic (tag : Nat) (encodePayload : EncState → EncResult)
    (disable_value_sharing : Bool) (st : EncState) : EncResult :=
  let value_sharing := st.value_sharing
  let st1 := if disable_value_sharing then { st with value_sharing := false } else st
  match writeLen st1 0xc0 tag with
  | .err msg st2 => .err msg st2
  | .ok st2 =>
    match encodePayload st2 with
    | .ok st3 =>
      .ok (if disable_value_sharing then { st3 with value_sharing := value_sharing } else st3)
    | .err msg st3 => .err msg st3

/-- encode_int from the source.  In the big-integer branch the payload of
encode_semantic is a byte string, whose dispatch resolves to
encode_bytestring. -/
def encode_int (value : Int) (st : EncState) : EncResult :=
  if 18446744073709551616 ≤ value ∨ value < -18446744073709551616 then
    if 0 ≤ value then
      encode_semantic 0x02 (encode_bytestring (beBytes value.toNat)) false st
    else
      encode_semantic 0x03 (encode_bytestring (beBytes (-value - 1).toNat)) false st
  else if 0 ≤ value then
    writeLen st 0 value.toNat
  else
    writeLen st 0x20 (value.natAbs - 1)

mutual
/-- Values the container encoders can traverse.  PyList and PyPairs are the
item list of a Python list/tuple and the item pairs of a dict.  The id field
of arr and map is the object identity Python id() reports for the container;
two structurally equal containers with different ids are distinct objects,
and one object reachable twice carries the same id at both occurrences. -/
inductive PyVal : Type where
  | int (n : Int)
  | bytes (bs : List Nat)
  | str (s : String)
  | arr (value_id : Nat) (items : PyList)
  | map (value_id : Nat) (pairs : PyPairs)
inductive PyList : Type where
  | nil
  | cons (v : PyVal) (rest : PyList)
inductive PyPairs : Type where
  | nil
  | cons (k v : PyVal) (rest : PyPairs)
end

/-- len() of a list value. -/
def PyList.length : PyList → Nat
  | .nil => 0
  | .cons _ rest => 1 + rest.length

/-- len() of a dict value. -/
def PyPairs.length : PyPairs → Nat
  | .nil => 0
  | .cons _ _ rest => 1 + rest.length

/-- Exit of the _in_stack context manager.  The generator body has no
try/finally around its yield, so the remove after the yield runs only when
the with-body completed normally; when the body raises, the exception is
thrown into the generator at the yield and the remove is skipped. -/
def popOnOk (value_id : Nat) (r : EncResult) : EncResult :=
  match r with
  | .ok st => .ok { st with container_stack := st.container_stack.erase value_id }
  | .err msg st => .err msg st

mutual
/-- The dispatch engine encode together with the per-type encoders
encode_array and encode_map from the source (their bodies are the two
container branches; wrappers with the source names are defined below).
Dispatch on this value type always finds an exact match, so the subclass
scan of the registry is never reached for these values. -/
def encode : PyVal → EncState → EncResult
  | .int value, st => encode_int value st
  | .bytes value, st => encode_bytestring value st
  | .str value, st => encode_string value st
  | .arr value_id items, st =>
    if st.value_sharing then
      match dictGet st.container_indexes value_id with
      | some container_index =>
        match writeLen st 0xd8 0x1d with
        | .ok st2 => encode_int (Int.ofNat container_index) st2
        | .err msg st2 => .err msg st2
      | none =>
        let st1 := { st with container_indexes :=
          (value_id, st.container_stack.length) :: st.container_indexes }
        match writeLen st1 0xd8 0x1c with
        | .ok st2 =>
          match writeLen st2 0x80 items.length with
          | .ok st3 =>
            popOnOk value_id (encodeList items
              { st3 with container_stack := stackAdd st3.container_stack value_id })
          | .err msg st3 => .err msg st3
        | .err msg st2 => .err msg st2
    else if value_id ∈ st.container_stack then
      .err cycleMsg st
    else
      match writeLen st 0x80 items.length with
      | .ok st3 =>
        popOnOk value_id (encodeList items
          { st3 with container_stack := stackAdd st3.container_stack value_id })
      | .err msg st3 => .err msg st3
  | .map value_id pairs, st =>
    if st.value_sharing then
      match dictGet st.container_indexes value_id with
      | some container_index =>
        match writeLen st 0xd8 0x1d with
        | .ok st2 => encode_int (Int.ofNat container_index) st2
        | .err msg st2 => .err msg st2
      | none =>
        let st1 := { st with container_indexes :=
          (value_id, st.container_stack.length) :: st.container_indexes }
        match writeLen st1 0xd8 0x1c with
        | .ok st2 =>
          match writeLen st2 0xa0 pairs.length with
          | .ok st3 =>
            popOnOk value_id (encodePairs pairs
              { st3 with container_stack := stackAdd st3.container_stack value_id })
          | .err msg st3 => .err msg st3
        | .err msg st2 => .err msg st2
    else if value_id ∈ st.container_stack then
      .err cycleMsg st
    else
      match writeLen st 0xa0 pairs.length with
      | .ok st3 =>
        popOnOk value_id (encodePairs pairs
          { st3 with container_stack := stackAdd st3.container_stack value_id })
      | .err msg st3 => .err msg st3

/-- The for-loop over the items of a list, stopping at the first raise. -/
def encodeList : PyList → EncState → EncResult
  | .nil, st => .ok st
  | .cons v rest, st =>
    match encode v st with
    | .ok st2 => encodeList rest st2
    | .err msg st2 => .err msg st2

/-- The for-loop over the key/value pairs of a dict. -/
def encodePairs : PyPairs → EncState → EncResult
  | .nil, st => .ok st
  | .cons k v rest, st =>
    match encode k st with
    | .ok st2 =>
      match encode v st2 with
      | .ok st3 => encodePairs rest st3
      | .err msg st3 => .err msg st3
    | .err msg st2 => .err msg st2
end

/-- encode_array from the source (the arr branch of encode above). -/
def encode_array (value_id : Nat) (items : PyList) (st : EncState) : EncResult :=
  encode (.arr value_id items) st

/-- encode_map from the source (the map branch of encode above). -/
def encode_map (value_id : Nat) (pairs : PyPairs) (st : EncState) : EncResult :=
  encode (.map value_id pairs) st

/-- A host-language Decimal, as seen through the methods the encoder calls:
as_tuple() returning (sign, digits, exponent) with sign 0 or 1 and digits the
decimal digits of the coefficient most significant first, and the is_nan and
is_infinite tests. -/
structure PyDecimal where
  sign : Nat
  digits : List Nat
  exponent : Int
  nan : Bool
  infinite : Bool
deriving DecidableEq

/-- The mantissa sum of encode_decimal: sum of d * 10 ** i over the digits in
reverse order, enumerated from 0. -/
def decimal_mantissa (digits : List Nat) : Nat :=
  (digits.reverse.enum.map (fun p => p.2 * 10 ^ p.1)).sum

/-- The rational number a finite Decimal denotes:
(-1) ** sign * coefficient * 10 ** exponent. -/
def PyDecimal.toRat (d : PyDecimal) : ℚ :=
  (if d.sign = 1 then -1 else 1) * (decimal_mantissa d.digits : ℚ) * 10 ^ d.exponent

/-- The object identity of a list literal freshly built inside an encoder
method: Python guarantees it differs from the id of every live object, in
particular from every id on the active container stack. -/
def freshId (st : EncState) : Nat := st.container_stack.foldr max 0 + 1

/-- encode_decimal from the source.  The value > 0 test on an infinite
Decimal is its sign bit being 0.  The payload of encode_semantic is the fresh
two-element list [dt.exponent, mantissa], dispatched to encode_array; the
mantissa is a plain non-negative int because the digit sum ignores the sign
bit of the tuple. -/
def encode_decimal (value : PyDecimal) (st : EncState) : EncResult :=
  if value.nan then .ok (st.write [0xf9, 0x7e, 0x00])
  else if value.infinite then
    .ok (st.write (if value.sign = 0 then [0xf9, 0x7c, 0x00] else [0xf9, 0xfc, 0x00]))
  else
    encode_semantic 4
      (encode (.arr (freshId st)
        (.cons (.int value.exponent)
          (.cons (.int (Int.ofNat (decimal_mantissa value.digits))) .nil))))
      true st

/-- A host-language datetime, as seen through what the encoder calls on it:
its tzinfo attribute (none when naive; the replace call only swaps this
field), the epoch seconds timegm(value.utctimetuple()) + value.microsecond
// 1000000, and the isoformat string with a trailing +00:00 already replaced
by Z.  The calendar arithmetic behind the last two is host-library behavior
outside this repository, so the values are carried as fields. -/
structure PyDatetime where
  tzinfo : Option Nat
  epoch : Int
  iso : String
deriving DecidableEq

/-- encode_datetime from the source.  The two encode_semantic payloads are an
int and a str, dispatched to encode_int and encode_string through encode. -/
def encode_datetime (cfg : Config) (value : PyDatetime) (st : EncState) : EncResult :=
  match (match value.tzinfo with
         | none =>
           match cfg.timezone with
           | some tz => Sum.inr { value with tzinfo := some tz }
           | none => Sum.inl (EncResult.err naiveMsg st)
         | some _ => Sum.inr value : Sum EncResult PyDatetime) with
  | Sum.inl r => r
  | Sum.inr value =>
    if cfg.datetime_as_timestamp then
      encode_semantic 1 (encode (.int value.epoch)) false st
    else
      encode_semantic 0 (encode (.str value.iso)) false st

/-- The initial state dumps builds: fresh BytesIO sink and a fresh encoder
with the default configuration (value sharing enabled). -/
def st0 : EncState := ⟨[], true, [], []⟩

/-- The initial state of a fresh encoder constructed with value_sharing set
to False. -/
def st0nc : EncState := ⟨[], false, [], []⟩

/-- A Python list of small Python ints, as a traversable value. -/
def intList : List Nat → PyList
  | [] => .nil
  | n :: rest => .cons (.int (Int.ofNat n)) (intList rest)

/-- The Decimal -1.5: as_tuple() gives sign 1, digits (1, 5), exponent -1. -/
def decNeg : PyDecimal := ⟨1, [1, 5], -1, false, false⟩

/-- The Decimal 1.5: as_tuple() gives sign 0, digits (1, 5), exponent -1. -/
def decPos : PyDecimal := ⟨0, [1, 5], -1, false, false⟩

theorem beToNat_append_one (xs : List Nat) (b : Nat) :
    beToNat (xs ++ [b]) = beToNat xs * 256 + b := by
  simp [beToNat, List.foldl_append]

theorem bePad_length (w : Nat) : ∀ m, (bePad w m).length = w := by
  induction w with
  | zero => intro m; rfl
  | succ w ih => intro m; simp [bePad, ih]

theorem bePad_beToNat (w : Nat) : ∀ m, m < 256 ^ w → beToNat (bePad w m) = m := by
  induction w with
  | zero =>
    intro m hm
    have : m = 0 := by simpa using hm
    simp [this, bePad, beToNat]
  | succ w ih =>
    intro m hm
    have hdiv : m / 256 < 256 ^ w := by
      rw [Nat.div_lt_iff_lt_mul (by norm_num)]
      calc m < 256 ^ (w + 1) := hm
        _ = 256 ^ w * 256 := by ring
    rw [bePad, beToNat_append_one, ih (m / 256) hdiv]
    omega

theorem beBytesAux_beToNat : ∀ fuel m, m ≤ fuel → beToNat (beBytesAux fuel m) = m := by
  intro fuel
  induction fuel with
  | zero =>
    intro m hm
    have : m = 0 := by omega
    simp [this, beBytesAux, beToNat]
  | succ f ih =>
    intro m hm
    match m with
    | 0 => simp [beBytesAux, beToNat]
    | m + 1 =>
      have hfuel : (m + 1) / 256 ≤ f := by omega
      rw [beBytesAux, beToNat_append_one, ih ((m + 1) / 256) hfuel]
      omega

theorem beBytes_beToNat (m : Nat) : beToNat (beBytes m) = m :=
  beBytesAux_beToNat m m (le_refl m)

theorem beBytesAux_bounds : ∀ fuel m, m ≤ fuel →
    m < 256 ^ (beBytesAux fuel m).length ∧
    (0 < m → 256 ^ ((beBytesAux fuel m).length - 1) ≤ m) := by
  intro fuel
  induction fuel with
  | zero =>
    intro m hm
    have : m = 0 := by omega
    simp [this, beBytesAux]
  | succ f ih =>
    intro m hm
    match m with
    | 0 => simp [beBytesAux]
    | m + 1 =>
      have hfuel : (m + 1) / 256 ≤ f := by omega
      obtain ⟨hlt, hge⟩ := ih ((m + 1) / 256) hfuel
      rw [beBytesAux]
      constructor
      · simp only [List.length_append, List.length_cons, List.length_nil]
        have : m + 1 < 256 ^ (beBytesAux f ((m + 1) / 256)).length * 256 := by
          have h2 : (m + 1) / 256 + 1 ≤ 256 ^ (beBytesAux f ((m + 1) / 256)).length := hlt
          have h3 : m + 1 < ((m + 1) / 256 + 1) * 256 := by omega
          calc m + 1 < ((m + 1) / 256 + 1) * 256 := h3
            _ ≤ 256 ^ (beBytesAux f ((m + 1) / 256)).length * 256 :=
              Nat.mul_le_mul_right 256 h2
        calc m + 1 < 256 ^ (beBytesAux f ((m + 1) / 256)).length * 256 := this
          _ = 256 ^ ((beBytesAux f ((m + 1) / 256)).length + 1) := by ring
      · intro _
        simp only [List.length_append, List.length_cons, List.length_nil]
        by_cases hq : (m + 1) / 256 = 0
        · have : (beBytesAux f ((m + 1) / 256)).length = 0 := by
            rw [hq]
            cases f <;> rfl
          simp [this]
        · have hqpos : 0 < (m + 1) / 256 := Nat.pos_of_ne_zero hq
          have hlen : 0 < (beBytesAux f ((m + 1) / 256)).length := by
            by_contra hc
            have h0 : (beBytesAux f ((m + 1) / 256)).length = 0 := by omega
            rw [h0] at hlt
            omega
          have hstep := hge hqpos
          have : 256 ^ ((beBytesAux f ((m + 1) / 256)).length - 1) * 256 ≤ (m + 1) / 256 * 256 :=
            Nat.mul_le_mul_right 256 hstep
          have hpow : 256 ^ ((beBytesAux f ((m + 1) / 256)).length - 1) * 256 =
              256 ^ (beBytesAux f ((m + 1) / 256)).length := by
            have : (beBytesAux f ((m + 1) / 256)).length - 1 + 1 =
                (beBytesAux f ((m + 1) / 256)).length := by omega
            calc 256 ^ ((beBytesAux f ((m + 1) / 256)).length - 1) * 256
                = 256 ^ ((beBytesAux f ((m + 1) / 256)).length - 1 + 1) := by ring
              _ = 256 ^ (beBytesAux f ((m + 1) / 256)).length := by rw [this]
          have hdivmul : (m + 1) / 256 * 256 ≤ m + 1 := Nat.div_mul_le_self (m + 1) 256
          have hfinal : 256 ^ (beBytesAux f ((m + 1) / 256)).length ≤ m + 1 := by
            omega
          have hlen1 : (beBytesAux f ((m + 1) / 256)).length + 1 - 1 =
              (beBytesAux f ((m + 1) / 256)).length := by omega
          rw [hlen1]
          exact hfinal

theorem beBytes_bounds (m : Nat) :
    m < 256 ^ (beBytes m).length ∧ (0 < m → 256 ^ ((beBytes m).length - 1) ≤ m) :=
  beBytesAux_bounds m m (le_refl m)

theorem beToNat_lt_of_bytes : ∀ bs : List Nat, (∀ b ∈ bs, b < 256) →
    beToNat bs < 256 ^ bs.length := by
  intro bs
  induction bs using List.reverseRecOn with
  | nil => intro _; simp [beToNat]
  | append_singleton xs b ih =>
    intro hb
    have hxs : ∀ x ∈ xs, x < 256 := fun x hx => hb x (by simp [hx])
    have hblt : b < 256 := hb b (by simp)
    rw [beToNat_append_one]
    have := ih hxs
    simp only [List.length_append, List.length_cons, List.length_nil]
    calc beToNat xs * 256 + b < (beToNat xs + 1) * 256 := by omega
      _ ≤ 256 ^ xs.length * 256 := Nat.mul_le_mul_right 256 (by omega)
      _ = 256 ^ (xs.length + 1) := by ring

theorem encode_length_total (major_tag length : Nat)
    (h : length < 18446744073709551616) :
    ∃ bs, encode_length major_tag length = some bs := by
  unfold encode_length
  split_ifs <;> exact ⟨_, rfl⟩

theorem EncState.write_write (st : EncState) (a b : List Nat) :
    (st.write a).write b = st.write (a ++ b) := by
  simp [EncState.write]

theorem EncState.write_nil (st : EncState) : st.write [] = st := by
  simp [EncState.write]

theorem intList_length (l : List Nat) : (intList l).length = l.length := by
  induction l with
  | nil => rfl
  | cons n rest ih => simp [intList, PyList.length, ih]; omega

/-- A small non-negative int encodes inline as its own single byte, and the
ints of a list are written one after the other. -/
theorem encodeList_small_ints : ∀ (l : List Nat) (st : EncState),
    (∀ n ∈ l, n < 24) → encodeList (intList l) st = .ok (st.write l) := by
  intro l
  induction l with
  | nil => intro st _; simp [intList, encodeList, EncState.write_nil]
  | cons n rest ih =>
    intro st hl
    have hn : n < 24 := hl n (by simp)
    have hnotbig : ¬(18446744073709551616 ≤ (Int.ofNat n) ∨
        (Int.ofNat n) < -18446744073709551616) := by
      simp only [Int.ofNat_eq_natCast]
      omega
    have hge : (0 : Int) ≤ Int.ofNat n := Int.ofNat_nonneg n
    have htn : (Int.ofNat n).toNat = n := rfl
    simp only [intList, encodeList, encode, encode_int]
    rw [if_neg hnotbig, if_pos hge, htn]
    have hwl : writeLen st 0 n = .ok (st.write [n]) := by
      simp [writeLen, encode_length, hn]
    rw [hwl]
    show encodeList (intList rest) (st.write [n]) = EncResult.ok (st.write (n :: rest))
    rw [ih (st.write [n]) (fun x hx => hl x (by simp [hx]))]
    rw [EncState.write_write]
    rfl

/-- C2: the claim says the container identity is removed from the active
stack on every exit path, including failure.  The code disagrees: encoding
the self-referential list l = [l] (identity 1) with value sharing disabled
raises the cycle error from inside the list body, and after the raise the
identity 1 is still on container_stack, because the context manager has no
try/finally around its yield.  This theorem evaluates the code at that
failing input and records the nonempty leftover stack. -/
theorem C2_stale_stack_after_failure :
    encode (.arr 1 (.cons (.arr 1 .nil) .nil)) st0nc =
      .err cycleMsg ⟨[0x81], false, [], [1]⟩ ∧
    ([1] : List Nat) ≠ [] := by decide

/-- C3 counterexample: with the default configuration (value sharing
enabled), encoding an empty list writes d8 1c 80, not the single byte 80,
because the first encounter of any container emits the shareable-marker tag
header first; likewise the empty dict writes d8 1c a0.  So the output is not
independent of the sharing configuration. -/
theorem C3_empty_containers_counterexample :
    encode (.arr 1 .nil) st0 = .ok ⟨[0xd8, 0x1c, 0x80], true, [(1, 0)], []⟩ ∧
    encode (.map 2 .nil) st0 = .ok ⟨[0xd8, 0x1c, 0xa0], true, [(2, 0)], []⟩ ∧
    ([0xd8, 0x1c, 0x80] : List Nat) ≠ [0x80] ∧
    ([0xd8, 0x1c, 0xa0] : List Nat) ≠ [0xa0] := by decide

/-- C6: the claim says the encoded pair [exponent, mantissa] denotes d also
for negative d.  The code drops the sign bit of as_tuple(): Decimal -1.5
encodes to exactly the same bytes c4 82 20 0f as Decimal 1.5 (tag 4, array
of exponent -1 and mantissa 15), and the pair denotes 1.5 while the value
is -1.5.  The sharing-disabled and tag-4 parts of the claim do hold on this
run (no share bookkeeping appears in the final state). -/
theorem C6_decimal_sign_dropped :
    encode_decimal decNeg st0 = .ok ⟨[0xc4, 0x82, 0x20, 0x0f], true, [], []⟩ ∧
    encode_decimal decPos st0 = .ok ⟨[0xc4, 0x82, 0x20, 0x0f], true, [], []⟩ ∧
    PyDecimal.toRat decPos = (decimal_mantissa decNeg.digits : ℚ) * 10 ^ decNeg.exponent ∧
    PyDecimal.toRat decNeg ≠ (decimal_mantissa decNeg.digits : ℚ) * 10 ^ decNeg.exponent := by
  have hm : decimal_mantissa [1, 5] = 15 := by decide
  refine ⟨by decide, by decide, ?_, ?_⟩
  · norm_num [PyDecimal.toRat, decNeg, decPos, hm]
  · norm_num [PyDecimal.toRat, decNeg, decPos, hm]

/-- C9 counterexample: the Packer is not total over all non-negative
integers: at length 2 ** 64 every size class is exhausted and the final
struct.pack of an unsigned 64-bit field raises struct.error. -/
theorem C9_pack_counterexample :
    encode_length 0 18446744073709551616 = none := by decide

/-- C9 amended: the Packer succeeds for every major type byte and every
length below 2 ** 64; only lengths of 2 ** 64 and above make it raise. -/
theorem C9_pack_total_below_64 (major_tag length : Nat)
    (h : length < 18446744073709551616) :
    ∃ bs, encode_length major_tag length = some bs :=
  encode_length_total major_tag length h

theorem C9_pack_total_below_64_witness :
    ∃ bs, encode_length 0xe0 23 = some bs :=
  C9_pack_total_below_64 0xe0 23 (by decide)

/-- C10: the bignum threshold is strict at the negative boundary.  The
boundary values evaluate as the claim states: -(2 ** 64) is a plain
major-type-1 item 3b ff ff ff ff ff ff ff ff, 2 ** 64 - 1 a plain
major-type-0 item, 2 ** 64 a tag-2 bignum, and -(2 ** 64) - 1 a tag-3
bignum. -/
theorem C10_bignum_threshold :
    encode_int (-18446744073709551616) st0 =
      .ok ⟨[0x3b, 0xff, 0xff, 0xff, 0xff, 0xff, 0xff, 0xff, 0xff], true, [], []⟩ ∧
    encode_int 18446744073709551615 st0 =
      .ok ⟨[0x1b, 0xff, 0xff, 0xff, 0xff, 0xff, 0xff, 0xff, 0xff], true, [], []⟩ ∧
    encode_int 18446744073709551616 st0 =
      .ok ⟨[0xc2, 0x49, 1, 0, 0, 0, 0, 0, 0, 0, 0], true, [], []⟩ ∧
    encode_int (-18446744073709551617) st0 =
      .ok ⟨[0xc3, 0x49, 1, 0, 0, 0, 0, 0, 0, 0, 0], true, [], []⟩ := by decide

/-- C1: for every n below 2 ** 64, encode writes exactly the Packer head for
major type 0 at value n, that head parses back to major 0 and value n, its
length is the minimal size class given by the thresholds 23 / 255 / 65535 /
4294967295, and the four examples of the claim evaluate to the stated
bytes. -/
theorem C1_small_int_minimal_head :
    (∀ (n : Nat) (st : EncState), n < 18446744073709551616 →
      ∃ bs, encode_length 0 n = some bs ∧
        encode (.int (Int.ofNat n)) st = .ok (st.write bs) ∧
        readHead bs = some (0, n) ∧
        bs.length = sizeClassLen n) ∧
    encode (.int 0) st0 = .ok (st0.write [0x00]) ∧
    encode (.int 23) st0 = .ok (st0.write [0x17]) ∧
    encode (.int 24) st0 = .ok (st0.write [0x18, 0x18]) ∧
    encode (.int 256) st0 = .ok (st0.write [0x19, 0x01, 0x00]) := by
  refine ⟨?_, by decide, by decide, by decide, by decide⟩
  intro n st hn
  have hnotbig : ¬(18446744073709551616 ≤ (Int.ofNat n) ∨
      (Int.ofNat n) < -18446744073709551616) := by
    simp only [Int.ofNat_eq_natCast]
    omega
  have hge : 0 ≤ Int.ofNat n := by
    simp only [Int.ofNat_eq_natCast]
    omega
  have henc : encode (.int (Int.ofNat n)) st = writeLen st 0 n := by
    simp only [encode, encode_int]
    rw [if_neg hnotbig, if_pos hge]
    rfl
  by_cases h1 : n < 24
  · have hel : encode_length 0 n = some [n] := by
      simp [encode_length, h1, Nat.zero_or]
    refine ⟨[n], hel, ?_, ?_, ?_⟩
    · rw [henc]; simp only [writeLen]; rw [hel]
    · have e1 : n % 32 = n := Nat.mod_eq_of_lt (by omega)
      have e2 : n / 32 = 0 := Nat.div_eq_of_lt (by omega)
      simp [readHead, e1, e2, h1]
    · simp [sizeClassLen, h1]
  by_cases h2 : n < 256
  · have hel : encode_length 0 n = some [24, n] := by
      simp [encode_length, h1, h2, Nat.zero_or]
    refine ⟨[24, n], hel, ?_, ?_, ?_⟩
    · rw [henc]; simp only [writeLen]; rw [hel]
    · simp [readHead]
    · simp [sizeClassLen, h1, h2]
  by_cases h3 : n < 65536
  · have hel : encode_length 0 n = some (25 :: bePad 2 n) := by
      simp [encode_length, h1, h2, h3, Nat.zero_or]
    refine ⟨25 :: bePad 2 n, hel, ?_, ?_, ?_⟩
    · rw [henc]; simp only [writeLen]; rw [hel]
    · have hbn : beToNat (bePad 2 n) = n :=
        bePad_beToNat 2 n (lt_of_lt_of_le h3 (by norm_num))
      simp [readHead, bePad_length, hbn]
    · simp [sizeClassLen, h1, h2, h3, bePad_length]
  by_cases h4 : n < 4294967296
  · have hel : encode_length 0 n = some (26 :: bePad 4 n) := by
      simp [encode_length, h1, h2, h3, h4, Nat.zero_or]
    refine ⟨26 :: bePad 4 n, hel, ?_, ?_, ?_⟩
    · rw [henc]; simp only [writeLen]; rw [hel]
    · have hbn : beToNat (bePad 4 n) = n :=
        bePad_beToNat 4 n (lt_of_lt_of_le h4 (by norm_num))
      simp [readHead, bePad_length, hbn]
    · simp [sizeClassLen, h1, h2, h3, h4, bePad_length]
  · have hel : encode_length 0 n = some (27 :: bePad 8 n) := by
      simp [encode_length, h1, h2, h3, h4, hn, Nat.zero_or]
    refine ⟨27 :: bePad 8 n, hel, ?_, ?_, ?_⟩
    · rw [henc]; simp only [writeLen]; rw [hel]
    · have hbn : beToNat (bePad 8 n) = n :=
        bePad_beToNat 8 n (lt_of_lt_of_le hn (by norm_num))
      simp [readHead, bePad_length, hbn]
    · simp [sizeClassLen, h1, h2, h3, h4, bePad_length]

theorem C1_small_int_minimal_head_witness :
    ∃ bs, encode_length 0 256 = some bs ∧
      encode (.int (Int.ofNat 256)) st0 = .ok (st0.write bs) ∧
      readHead bs = some (0, 256) ∧
      bs.length = sizeClassLen 256 :=
  C1_small_int_minimal_head.1 256 st0 (by decide)

theorem stackAdd_mem_self (s : List Nat) (i : Nat) : i ∈ stackAdd s i := by
  unfold stackAdd
  split_ifs with h
  · exact h
  · exact List.mem_cons_self i s

/-- An int whose magnitude fits 64 bits always encodes without raising. -/
theorem encode_int_small_ok (n : Int) (st : EncState)
    (h : n.natAbs < 18446744073709551616) :
    ∃ bs, encode_int n st = .ok (st.write bs) := by
  unfold encode_int
  have hnb : ¬(18446744073709551616 ≤ n ∨ n < -18446744073709551616) := by omega
  rw [if_neg hnb]
  by_cases hpos : 0 ≤ n
  · rw [if_pos hpos]
    obtain ⟨bs, hbs⟩ := encode_length_total 0 n.toNat (by omega)
    exact ⟨bs, by simp [writeLen, hbs]⟩
  · rw [if_neg hpos]
    obtain ⟨bs, hbs⟩ := encode_length_total 0x20 (n.natAbs - 1) (by omega)
    exact ⟨bs, by simp [writeLen, hbs]⟩

/-- A string whose UTF-8 form is shorter than 2 ** 64 bytes always encodes
without raising. -/
theorem encode_string_ok (s : String) (st : EncState)
    (h : (utf8Bytes s).length < 18446744073709551616) :
    ∃ bs, encode_string s st = .ok (st.write bs) := by
  unfold encode_string
  obtain ⟨hd, hhd⟩ := encode_length_total 0x60 (utf8Bytes s).length h
  refine ⟨hd ++ utf8Bytes s, ?_⟩
  simp [writeLen, hhd, EncState.write_write]

/-- Reduction of encode_semantic when sharing is untouched and both the tag
head and the payload succeed. -/
theorem encode_semantic_ok_nodisable (tag : Nat) (f : EncState → EncResult)
    (st : EncState) (hd : List Nat) (st3 : EncState)
    (htag : encode_length 0xc0 tag = some hd)
    (hf : f (st.write hd) = .ok st3) :
    encode_semantic tag f false st = .ok st3 := by
  simp only [encode_semantic, writeLen, htag]
  simp [hf]

/-- C7: a naive datetime (tzinfo none) raises the naive-datetime error when
no default timezone is configured, with the state unchanged (nothing written
for the value); with a default timezone configured it encodes successfully,
emitting a tag-1 head c1 in timestamp mode and a tag-0 head c0 in string
mode, followed by the payload bytes. -/
theorem C7_naive_datetime (cfg : Config) (dt : PyDatetime) (st : EncState)
    (hnaive : dt.tzinfo = none) :
    (cfg.timezone = none → encode_datetime cfg dt st = .err naiveMsg st) ∧
    (∀ tz, cfg.timezone = some tz →
      dt.epoch.natAbs < 18446744073709551616 →
      (utf8Bytes dt.iso).length < 18446744073709551616 →
      ∃ st2 rest, encode_datetime cfg dt st = .ok st2 ∧
        st2.out = st.out ++ (if cfg.datetime_as_timestamp then 0xc1 else 0xc0) :: rest) := by
  constructor
  · intro htz
    simp [encode_datetime, hnaive, htz]
  · intro tz htz hep hiso
    by_cases hmode : cfg.datetime_as_timestamp
    · have htag1 : encode_length 0xc0 1 = some [0xc1] := by decide
      obtain ⟨bs, hbs⟩ := encode_int_small_ok dt.epoch (st.write [0xc1]) hep
      refine ⟨(st.write [0xc1]).write bs, bs, ?_, ?_⟩
      · have hsem := encode_semantic_ok_nodisable 1 (encode (.int dt.epoch)) st [0xc1]
          ((st.write [0xc1]).write bs) htag1 (by simpa [encode] using hbs)
        simp only [encode_datetime, hnaive, htz, hmode, if_true]
        exact hsem
      · simp [EncState.write, hmode]
    · have htag0 : encode_length 0xc0 0 = some [0xc0] := by decide
      obtain ⟨bs, hbs⟩ := encode_string_ok dt.iso (st.write [0xc0]) hiso
      refine ⟨(st.write [0xc0]).write bs, bs, ?_, ?_⟩
      · have hsem := encode_semantic_ok_nodisable 0 (encode (.str dt.iso)) st [0xc0]
          ((st.write [0xc0]).write bs) htag0 (by simpa [encode] using hbs)
        simp only [encode_datetime, hnaive, htz, hmode, if_false, Bool.false_eq_true]
        exact hsem
      · simp [EncState.write, hmode]

theorem C7_naive_datetime_witness :
    encode_datetime ⟨false, none⟩ ⟨none, 3, "x"⟩ st0 = .err naiveMsg st0 ∧
    (∃ st2 rest, encode_datetime ⟨true, some 7⟩ ⟨none, 3, "x"⟩ st0 = .ok st2 ∧
      st2.out = st0.out ++
        (if (Config.mk true (some 7)).datetime_as_timestamp then 0xc1 else 0xc0) :: rest) :=
  ⟨(C7_naive_datetime ⟨false, none⟩ ⟨none, 3, "x"⟩ st0 rfl).1 rfl,
   (C7_naive_datetime ⟨true, some 7⟩ ⟨none, 3, "x"⟩ st0 rfl).2 7 rfl (by decide) (by decide)⟩

/-- C8: with value sharing disabled, a container whose identity is already
on the active stack raises the cycle error at once, before any output for
that container (the state is returned unchanged), for arrays and for maps;
and a list that directly contains itself raises the cycle error from any
clean starting state. -/
theorem C8_cycle_error (i : Nat) (items : PyList) (pairs : PyPairs) (st : EncState)
    (hvs : st.value_sharing = false)
    (hmem : i ∈ st.container_stack) :
    encode (.arr i items) st = .err cycleMsg st ∧
    encode (.map i pairs) st = .err cycleMsg st ∧
    (∀ (rest : PyList) (st2 : EncState), st2.value_sharing = false →
      i ∉ st2.container_stack →
      (PyList.cons (.arr i items) rest).length < 18446744073709551616 →
      ∃ st3, encode (.arr i (.cons (.arr i items) rest)) st2 = .err cycleMsg st3) := by
  refine ⟨?_, ?_, ?_⟩
  · simp only [encode]
    rw [if_neg (by simp [hvs]), if_pos hmem]
  · simp only [encode]
    rw [if_neg (by simp [hvs]), if_pos hmem]
  · intro rest st2 hvs2 hnmem hlen
    obtain ⟨bs, hbs⟩ := encode_length_total 0x80 (PyList.cons (.arr i items) rest).length hlen
    have hinner : ∀ stI : EncState, stI.value_sharing = false → i ∈ stI.container_stack →
        encode (.arr i items) stI = .err cycleMsg stI := by
      intro stI h1 h2
      simp only [encode]
      rw [if_neg (by simp [h1]), if_pos h2]
    simp only [encode]
    rw [if_neg (by simp [hvs2]), if_neg hnmem]
    simp only [writeLen, hbs]
    simp only [encodeList]
    rw [hinner _ (by simp [EncState.write, hvs2]) (stackAdd_mem_self _ i)]
    exact ⟨_, rfl⟩

theorem C8_cycle_error_witness :
    encode (.arr 1 .nil) ⟨[], false, [], [1]⟩ = .err cycleMsg ⟨[], false, [], [1]⟩ ∧
    encode (.map 1 .nil) ⟨[], false, [], [1]⟩ = .err cycleMsg ⟨[], false, [], [1]⟩ ∧
    (∃ st3, encode (.arr 1 (.cons (.arr 1 .nil) .nil)) st0nc = .err cycleMsg st3) :=
  ⟨(C8_cycle_error 1 .nil .nil ⟨[], false, [], [1]⟩ rfl (by decide)).1,
   (C8_cycle_error 1 .nil .nil ⟨[], false, [], [1]⟩ rfl (by decide)).2.1,
   (C8_cycle_error 1 .nil .nil ⟨[], false, [], [1]⟩ rfl (by decide)).2.2 .nil st0nc rfl
     (by decide) (by decide)⟩

/-- C5: every int of magnitude at least 2 ** 64 is encoded as a tag head c2
(non-negative) or c3 (negative) followed by a byte string holding the
big-endian digits of the magnitude m, with m the value itself when
non-negative and -n-1 when negative; reading the digit string back as a
big-endian unsigned integer gives exactly m, and the digit string is of
minimal length among all byte strings denoting m.  The fuel-free bound on
the digit count reflects that a raise would occur only for ints too large
to exist in memory. -/
theorem C5_bignum_roundtrip (n : Int) (m mj : Nat) (st : EncState)
    (hbig : 18446744073709551616 ≤ n ∨ n < -18446744073709551616)
    (hm : m = if 0 ≤ n then n.toNat else (-n - 1).toNat)
    (hmj : mj = if 0 ≤ n then 2 else 3)
    (hlen : (beBytes m).length < 18446744073709551616) :
    ∃ hd, encode_length 0x40 (beBytes m).length = some hd ∧
      encode_int n st = .ok (st.write (((0xc0 ||| mj) :: hd) ++ beBytes m)) ∧
      beToNat (beBytes m) = m ∧
      m < 256 ^ (beBytes m).length ∧
      256 ^ ((beBytes m).length - 1) ≤ m ∧
      (∀ bs2, (∀ b ∈ bs2, b < 256) → beToNat bs2 = m →
        (beBytes m).length ≤ bs2.length) := by
  obtain ⟨hd, hhd⟩ := encode_length_total 0x40 (beBytes m).length hlen
  have hmbig : 18446744073709551616 ≤ m := by
    rcases hbig with h | h
    · have h0 : 0 ≤ n := by omega
      rw [hm, if_pos h0]
      omega
    · have h0 : ¬0 ≤ n := by omega
      rw [hm, if_neg h0]
      omega
  have hpay : ∀ st4 : EncState,
      encode_bytestring (beBytes m) st4 = .ok ((st4.write hd).write (beBytes m)) := by
    intro st4
    simp only [encode_bytestring, writeLen, hhd]
  have hmin : ∀ bs2, (∀ b ∈ bs2, b < 256) → beToNat bs2 = m →
      (beBytes m).length ≤ bs2.length := by
    intro bs2 hb hbeq
    by_contra hc
    push_neg at hc
    have h1 : beToNat bs2 < 256 ^ bs2.length := beToNat_lt_of_bytes bs2 hb
    have h2 : (256 : Nat) ^ bs2.length ≤ 256 ^ ((beBytes m).length - 1) :=
      Nat.pow_le_pow_right (by norm_num) (by omega)
    have h3 : 256 ^ ((beBytes m).length - 1) ≤ m := (beBytes_bounds m).2 (by omega)
    omega
  have hbody : ∀ tg : Nat, tg < 24 →
      encode_semantic tg (encode_bytestring (beBytes m)) false st =
        .ok (st.write (((0xc0 ||| tg) :: hd) ++ beBytes m)) := by
    intro tg htg
    have htag : encode_length 0xc0 tg = some [0xc0 ||| tg] := by
      simp [encode_length, htg]
    rw [encode_semantic_ok_nodisable tg (encode_bytestring (beBytes m)) st [0xc0 ||| tg]
      (((st.write [0xc0 ||| tg]).write hd).write (beBytes m)) htag (hpay _)]
    rw [EncState.write_write, EncState.write_write]
    rfl
  refine ⟨hd, hhd, ?_, beBytes_beToNat m, (beBytes_bounds m).1,
    (beBytes_bounds m).2 (by omega), hmin⟩
  unfold encode_int
  rw [if_pos hbig]
  by_cases h0 : 0 ≤ n
  · rw [if_pos h0]
    have hm2 : n.toNat = m := by rw [hm, if_pos h0]
    have hmj2 : mj = 2 := by rw [hmj, if_pos h0]
    rw [hm2, hmj2]
    exact hbody 2 (by norm_num)
  · rw [if_neg h0]
    have hm2 : (-n - 1).toNat = m := by rw [hm, if_neg h0]
    have hmj2 : mj = 3 := by rw [hmj, if_neg h0]
    rw [hm2, hmj2]
    exact hbody 3 (by norm_num)

theorem C5_bignum_roundtrip_witness :
    ∃ hd, encode_length 0x40 (beBytes 18446744073709551616).length = some hd ∧
      encode_int 18446744073709551616 st0 =
        .ok (st0.write (((0xc0 ||| 2) :: hd) ++ beBytes 18446744073709551616)) ∧
      beToNat (beBytes 18446744073709551616) = 18446744073709551616 ∧
      18446744073709551616 < 256 ^ (beBytes 18446744073709551616).length ∧
      256 ^ ((beBytes 18446744073709551616).length - 1) ≤ 18446744073709551616 ∧
      (∀ bs2, (∀ b ∈ bs2, b < 256) → beToNat bs2 = 18446744073709551616 →
        (beBytes 18446744073709551616).length ≤ bs2.length) :=
  C5_bignum_roundtrip 18446744073709551616 18446744073709551616 2 st0
    (Or.inl le_rfl) (by decide) (by decide) (by decide)

theorem stackAdd_erase (s : List Nat) (i : Nat) (h : i ∉ s) :
    (stackAdd s i).erase i = s := by
  simp [stackAdd, h, List.erase_cons_head]

/-- C3 amended: with value sharing disabled, the empty list encodes to the
single byte 80 and the empty dict to the single byte a0; with value sharing
enabled, the first encounter of the same containers prefixes the shareable
marker d8 1c to that byte and records a share index, so the output is not
independent of the sharing configuration. -/
theorem C3_empty_containers_amended (i : Nat) (st : EncState) :
    (st.value_sharing = false → i ∉ st.container_stack →
      encode (.arr i .nil) st = .ok (st.write [0x80]) ∧
      encode (.map i .nil) st = .ok (st.write [0xa0])) ∧
    (st.value_sharing = true → dictGet st.container_indexes i = none →
      i ∉ st.container_stack →
      encode (.arr i .nil) st = .ok { st.write [0xd8, 0x1c, 0x80] with
        container_indexes := (i, st.container_stack.length) :: st.container_indexes } ∧
      encode (.map i .nil) st = .ok { st.write [0xd8, 0x1c, 0xa0] with
        container_indexes := (i, st.container_stack.length) :: st.container_indexes }) := by
  constructor
  · intro hvs hnm
    constructor
    · simp only [encode]
      rw [if_neg (by simp [hvs]), if_neg hnm]
      have h80 : writeLen st 0x80 (PyList.length .nil) = .ok (st.write [0x80]) := by
        simp [writeLen, PyList.length, encode_length]
      rw [h80]
      simp [encodeList, popOnOk, EncState.write, stackAdd_erase _ _ hnm]
    · simp only [encode]
      rw [if_neg (by simp [hvs]), if_neg hnm]
      have ha0 : writeLen st 0xa0 (PyPairs.length .nil) = .ok (st.write [0xa0]) := by
        simp [writeLen, PyPairs.length, encode_length]
      rw [ha0]
      simp [encodePairs, popOnOk, EncState.write, stackAdd_erase _ _ hnm]
  · intro hvs hidx hnm
    constructor
    · simp only [encode]
      rw [if_pos hvs, hidx]
      have hmk : writeLen { st with container_indexes :=
          (i, st.container_stack.length) :: st.container_indexes } 0xd8 0x1c =
          .ok ({ st with container_indexes :=
            (i, st.container_stack.length) :: st.container_indexes }.write [0xd8, 0x1c]) := by
        simp [writeLen, encode_length]
      have h80 : ∀ stx : EncState, writeLen stx 0x80 (PyList.length .nil) =
          .ok (stx.write [0x80]) := by
        intro stx
        simp [writeLen, PyList.length, encode_length]
      simp [hmk, h80, encodeList, popOnOk, EncState.write, stackAdd_erase _ _ hnm]
    · simp only [encode]
      rw [if_pos hvs, hidx]
      have hmk : writeLen { st with container_indexes :=
          (i, st.container_stack.length) :: st.container_indexes } 0xd8 0x1c =
          .ok ({ st with container_indexes :=
            (i, st.container_stack.length) :: st.container_indexes }.write [0xd8, 0x1c]) := by
        simp [writeLen, encode_length]
      have ha0 : ∀ stx : EncState, writeLen stx 0xa0 (PyPairs.length .nil) =
          .ok (stx.write [0xa0]) := by
        intro stx
        simp [writeLen, PyPairs.length, encode_length]
      simp [hmk, ha0, encodePairs, popOnOk, EncState.write, stackAdd_erase _ _ hnm]

theorem C3_empty_containers_amended_witness :
    (encode (.arr 1 .nil) st0nc = .ok (st0nc.write [0x80]) ∧
     encode (.map 1 .nil) st0nc = .ok (st0nc.write [0xa0])) ∧
    (encode (.arr 1 .nil) st0 = .ok { st0.write [0xd8, 0x1c, 0x80] with
        container_indexes := (1, st0.container_stack.length) :: st0.container_indexes } ∧
     encode (.map 1 .nil) st0 = .ok { st0.write [0xd8, 0x1c, 0xa0] with
        container_indexes := (1, st0.container_stack.length) :: st0.container_indexes }) :=
  ⟨(C3_empty_containers_amended 1 st0nc).1 rfl (by decide),
   (C3_empty_containers_amended 1 st0).2 rfl rfl (by decide)⟩

/-- First encounter of a list of small ints under value sharing: a share
index equal to the current stack depth is recorded, the shareable marker
d8 1c is written, then the length-prefixed body, and the stack is restored. -/
theorem encode_arr_first (i : Nat) (l : List Nat) (stx : EncState)
    (hvs : stx.value_sharing = true)
    (hi : dictGet stx.container_indexes i = none)
    (hins : i ∉ stx.container_stack)
    (hl : ∀ n ∈ l, n < 24) (hlen : l.length < 24) :
    encode (.arr i (intList l)) stx =
      .ok { stx with
        out := stx.out ++ [0xd8, 0x1c, 0x80 ||| l.length] ++ l,
        container_indexes :=
          (i, stx.container_stack.length) :: stx.container_indexes } := by
  have hmk : ∀ stx2 : EncState, writeLen stx2 0xd8 0x1c = .ok (stx2.write [0xd8, 0x1c]) := by
    intro stx2
    simp [writeLen, encode_length]
  have hbody : ∀ stx2 : EncState, writeLen stx2 0x80 (intList l).length =
      .ok (stx2.write [0x80 ||| l.length]) := by
    intro stx2
    simp [writeLen, encode_length, intList_length, hlen]
  have hlist : ∀ stx2 : EncState, encodeList (intList l) stx2 = .ok (stx2.write l) :=
    fun stx2 => encodeList_small_ints l stx2 hl
  simp only [encode]
  rw [if_pos hvs, hi]
  simp [hmk, hbody, hlist, popOnOk, EncState.write, stackAdd_erase _ _ hins]

/-- Later encounter of a container identity under value sharing: only the
back-reference head d8 1d and the stored share index are written, nothing
else changes. -/
theorem encode_arr_backref (i : Nat) (items : PyList) (stx : EncState) (idx : Nat)
    (hvs : stx.value_sharing = true)
    (hi : dictGet stx.container_indexes i = some idx)
    (hidx : idx < 24) :
    encode (.arr i items) stx = .ok (stx.write [0xd8, 0x1d, idx]) := by
  have hbk : writeLen stx 0xd8 0x1d = .ok (stx.write [0xd8, 0x1d]) := by
    simp [writeLen, encode_length]
  have hnotbig : ¬(18446744073709551616 ≤ (Int.ofNat idx) ∨
      (Int.ofNat idx) < -18446744073709551616) := by
    simp only [Int.ofNat_eq_natCast]
    omega
  have hge : 0 ≤ Int.ofNat idx := by
    simp only [Int.ofNat_eq_natCast]
    omega
  have hint : encode_int (Int.ofNat idx) (stx.write [0xd8, 0x1d]) =
      .ok ((stx.write [0xd8, 0x1d]).write [idx]) := by
    unfold encode_int
    rw [if_neg hnotbig, if_pos hge]
    have htn : (Int.ofNat idx).toNat = idx := rfl
    rw [htn]
    simp [writeLen, encode_length, hidx]
  simp only [Int.ofNat_eq_natCast] at hint
  simp only [encode]
  rw [if_pos hvs, hi]
  simp [hbk, hint, EncState.write_write]

/-- C4: under value sharing, encoding an outer list that contains the same
inner list object twice writes, in order: the shareable marker and length
head of the outer list, the shareable marker and full length-prefixed body
of the inner list at its first encounter (whose share index is recorded as
the active-stack depth at that moment, here one more than the starting
depth), then for the second encounter only the back-reference head d8 1d
followed by that share index as an integer: the body bytes appear exactly
once. -/
theorem C4_share_backref (i j : Nat) (l : List Nat) (st : EncState)
    (hvs : st.value_sharing = true)
    (hij : i ≠ j)
    (hi : dictGet st.container_indexes i = none)
    (hj : dictGet st.container_indexes j = none)
    (hins : i ∉ st.container_stack)
    (hjns : j ∉ st.container_stack)
    (hl : ∀ n ∈ l, n < 24)
    (hlen : l.length < 24)
    (hdepth : st.container_stack.length + 1 < 24) :
    encode (.arr j (.cons (.arr i (intList l)) (.cons (.arr i (intList l)) .nil))) st =
      .ok { st with
        out := st.out ++ [0xd8, 0x1c, 0x82, 0xd8, 0x1c, 0x80 ||| l.length] ++ l ++
          [0xd8, 0x1d, st.container_stack.length + 1],
        container_indexes := (i, st.container_stack.length + 1) ::
          (j, st.container_stack.length) :: st.container_indexes } := by
  have hmk : ∀ stx2 : EncState, writeLen stx2 0xd8 0x1c = .ok (stx2.write [0xd8, 0x1c]) := by
    intro stx2
    simp [writeLen, encode_length]
  have hhd2 : ∀ stx2 : EncState,
      writeLen stx2 0x80 (PyList.cons (.arr i (intList l))
        (.cons (.arr i (intList l)) .nil)).length = .ok (stx2.write [0x82]) := by
    intro stx2
    simp [writeLen, encode_length, PyList.length]
  simp only [encode]
  rw [if_pos hvs, hj]
  -- state after the outer marker, length head and stack push
  have hstack4 : stackAdd st.container_stack j = j :: st.container_stack := by
    simp [stackAdd, hjns]
  have hfirst := encode_arr_first i l
    { st with
      out := st.out ++ [0xd8, 0x1c, 0x82],
      container_indexes := (j, st.container_stack.length) :: st.container_indexes,
      container_stack := j :: st.container_stack }
    (by simp [hvs]) (by simp [dictGet, hij, Ne.symm hij, hi])
    (by simp [hins, hij, Ne.symm hij]) hl hlen
  have hback := encode_arr_backref i (intList l)
    { st with
      out := (st.out ++ [0xd8, 0x1c, 0x82]) ++ [0xd8, 0x1c, 0x80 ||| l.length] ++ l,
      container_indexes := (i, st.container_stack.length + 1) ::
        (j, st.container_stack.length) :: st.container_indexes,
      container_stack := j :: st.container_stack }
    (st.container_stack.length + 1)
    (by simp [hvs]) (by simp [dictGet]) hdepth
  simp only [List.length_cons] at hfirst
  simp only [List.append_assoc, List.cons_append, List.nil_append] at hfirst hback
  simp [hmk, hhd2, EncState.write, hstack4, encodeList, hfirst, hback, popOnOk,
    List.erase_cons_head]

theorem C4_share_backref_witness :
    encode (.arr 2 (.cons (.arr 1 (intList [5])) (.cons (.arr 1 (intList [5])) .nil))) st0 =
      .ok { st0 with
        out := st0.out ++ [0xd8, 0x1c, 0x82, 0xd8, 0x1c, 0x80 ||| [5].length] ++ [5] ++
          [0xd8, 0x1d, st0.container_stack.length + 1],
        container_indexes := (1, st0.container_stack.length + 1) ::
          (2, st0.container_stack.length) :: st0.container_indexes } :=
  C4_share_backref 1 2 [5] st0 rfl (by decide) rfl rfl (by decide) (by decide)
    (by decide) (by decide) (by decide)

end Cbor2
